import Mathlib

/-!
Verification of the cookiebreaks break/claim lifecycle.

The repository is a Python FastAPI service.  The files under verification
are `api/src/api.py`, `api/src/cookiebreaks/api/routers/utils.py`,
`api/src/cookiebreaks/api/routers/claims.py` and `src/tasks/update.py`.
The persistence layer (`database` module: `insert_host`,
`reimburse_and_mask_host`, `claim_for_breaks`, `claim_reimbursed`,
`insert_breaks` / `insert_missing_breaks`, `get_break_objects`,
`get_claims`) and the record declarations (`structs` module) are not part
of the sources available here, so those operations are modelled from the
specification; the translation and endpoint code is embedded from the
Python sources directly.

Timestamps (`arrow.Arrow` / `datetime`) are modelled as natural numbers;
monetary amounts (`float`) as rationals.
-/

/-- Modelled from the source usage of `arrow.Arrow`: a timezone-aware
timestamp, carrying its `datetime` value.  Time is abstracted as a
natural number. -/
structure Arrow where
  datetime : Nat
deriving DecidableEq, Repr

/-- Modelled from the spec: a user record (`structs.User`, not under the
available sources); only the fields used by the translation layer are
kept: the username and the admin flag. -/
structure User where
  username : String
  admin : Bool
deriving DecidableEq, Repr

/-- Modelled from the spec: the internal break record (`structs.Break`,
not under the available sources).  Fields follow spec section 3 and the
field accesses in `break_internal_to_external`. -/
structure BreakInternal where
  id : Int
  break_time : Arrow
  location : String
  holiday : Bool
  host : Option String
  break_announced : Option Arrow
  cost : Option Rat
  host_reimbursed : Option Arrow
  admin_claimed : Option Arrow
  admin_reimbursed : Option Arrow
deriving DecidableEq, Repr

/-- Modelled from the spec: the stored claim record.  `breaks_claimed`
holds the ids of the member breaks; `claim_amount` is frozen at claim
creation (spec section 3). -/
structure ClaimRecord where
  id : Int
  claim_date : Arrow
  breaks_claimed : List Int
  claim_amount : Rat
  claim_reimbursed : Option Arrow
deriving DecidableEq, Repr

/-- Modelled from the spec: the internal claim shape (`structs.Claim`)
consumed by the translation layer: the claim expanded with its member
break records (spec section 4.2, `listClaims`). -/
structure ClaimInternal where
  id : Int
  claim_date : Arrow
  breaks_claimed : List BreakInternal
  claim_amount : Rat
  claim_reimbursed : Option Arrow
deriving DecidableEq, Repr

/-- The external break dataclass `Break` of `api.py` (lines 40-51). -/
structure Break where
  id : Int
  break_time : Nat
  location : String
  holiday : Bool
  host : Option String
  break_announced : Option Nat
  cost : Option Rat
  host_reimbursed : Option Nat
  admin_claimed : Option Nat
  admin_reimbursed : Option Nat
deriving DecidableEq, Repr

/-- The external break dataclass `BreakExternal` of
`cookiebreaks/api/routers/utils.py` (lines 15-26); its fields coincide
with those of `api.py`'s `Break`. -/
structure BreakExternal where
  id : Int
  break_time : Nat
  location : String
  holiday : Bool
  host : Option String
  break_announced : Option Nat
  cost : Option Rat
  host_reimbursed : Option Nat
  admin_claimed : Option Nat
  admin_reimbursed : Option Nat
deriving DecidableEq, Repr

/-- The external claim dataclass `ClaimExternal` of
`cookiebreaks/api/routers/utils.py` (lines 65-71). -/
structure ClaimExternal where
  id : Int
  claim_date : Nat
  breaks_claimed : List BreakExternal
  claim_amount : Rat
  claim_reimbursed : Option Nat
deriving DecidableEq, Repr

/-- `arrow_to_datetime` of `api.py` (lines 54-58) and `utils.py`
(lines 29-33): an `Arrow` object is always truthy in Python, so this is
`Option.map Arrow.datetime`. -/
def arrow_to_datetime (original : Option Arrow) : Option Nat :=
  match original with
  | some a => some a.datetime
  | none => none

/-- `break_internal_to_external` of `api.py` (lines 139-165): the five
financial fields are carried over only when the viewer is present and an
admin (`if current_user and current_user.admin`); otherwise they are
`None`.  The identity, time, location, holiday and host fields are
carried over unconditionally. -/
def break_internal_to_external (internal : BreakInternal) (current_user : Option User) : Break :=
  match current_user with
  | some u =>
    if u.admin then
      { id := internal.id
        break_time := internal.break_time.datetime
        location := internal.location
        holiday := internal.holiday
        host := internal.host
        break_announced := arrow_to_datetime internal.break_announced
        cost := internal.cost
        host_reimbursed := arrow_to_datetime internal.host_reimbursed
        admin_claimed := arrow_to_datetime internal.admin_claimed
        admin_reimbursed := arrow_to_datetime internal.admin_reimbursed }
    else
      { id := internal.id
        break_time := internal.break_time.datetime
        location := internal.location
        holiday := internal.holiday
        host := internal.host
        break_announced := none
        cost := none
        host_reimbursed := none
        admin_claimed := none
        admin_reimbursed := none }
  | none =>
      { id := internal.id
        break_time := internal.break_time.datetime
        location := internal.location
        holiday := internal.holiday
        host := internal.host
        break_announced := none
        cost := none
        host_reimbursed := none
        admin_claimed := none
        admin_reimbursed := none }

/-- `break_internal_to_external` of `cookiebreaks/api/routers/utils.py`
(lines 36-62), the duplicate of the translation in `api.py`, producing
the `BreakExternal` dataclass of that module. -/
def break_internal_to_external_utils (internal : BreakInternal) (current_user : Option User) : BreakExternal :=
  match current_user with
  | some u =>
    if u.admin then
      { id := internal.id
        break_time := internal.break_time.datetime
        location := internal.location
        holiday := internal.holiday
        host := internal.host
        break_announced := arrow_to_datetime internal.break_announced
        cost := internal.cost
        host_reimbursed := arrow_to_datetime internal.host_reimbursed
        admin_claimed := arrow_to_datetime internal.admin_claimed
        admin_reimbursed := arrow_to_datetime internal.admin_reimbursed }
    else
      { id := internal.id
        break_time := internal.break_time.datetime
        location := internal.location
        holiday := internal.holiday
        host := internal.host
        break_announced := none
        cost := none
        host_reimbursed := none
        admin_claimed := none
        admin_reimbursed := none }
  | none =>
      { id := internal.id
        break_time := internal.break_time.datetime
        location := internal.location
        holiday := internal.holiday
        host := internal.host
        break_announced := none
        cost := none
        host_reimbursed := none
        admin_claimed := none
        admin_reimbursed := none }

/-- `claim_internal_to_external` of `cookiebreaks/api/routers/utils.py`
(lines 74-88): copies id, date, the frozen `claim_amount` and the
reimbursement timestamp, and translates each member break for the same
viewer. -/
def claim_internal_to_external (internal : ClaimInternal) (current_user : Option User) : ClaimExternal :=
  { id := internal.id
    claim_date := internal.claim_date.datetime
    breaks_claimed :=
      internal.breaks_claimed.map (fun b => break_internal_to_external_utils b current_user)
    claim_amount := internal.claim_amount
    claim_reimbursed := arrow_to_datetime internal.claim_reimbursed }

/-- C1: for every internal break record and every viewer,
`break_internal_to_external` returns `none` for `break_announced`,
`cost`, `host_reimbursed`, `admin_claimed` and `admin_reimbursed`
whenever the viewer is absent or not an admin, and returns the internal
record's values for those fields whenever the viewer is an admin. -/
theorem break_view_masks_financial_fields (b : BreakInternal) (u : Option User) :
    ((u = none ∨ ∃ usr, u = some usr ∧ usr.admin = false) →
      (break_internal_to_external b u).break_announced = none ∧
      (break_internal_to_external b u).cost = none ∧
      (break_internal_to_external b u).host_reimbursed = none ∧
      (break_internal_to_external b u).admin_claimed = none ∧
      (break_internal_to_external b u).admin_reimbursed = none) ∧
    (∀ usr, u = some usr → usr.admin = true →
      (break_internal_to_external b u).break_announced = arrow_to_datetime b.break_announced ∧
      (break_internal_to_external b u).cost = b.cost ∧
      (break_internal_to_external b u).host_reimbursed = arrow_to_datetime b.host_reimbursed ∧
      (break_internal_to_external b u).admin_claimed = arrow_to_datetime b.admin_claimed ∧
      (break_internal_to_external b u).admin_reimbursed = arrow_to_datetime b.admin_reimbursed) := by
  constructor
  · rintro (rfl | ⟨usr, rfl, hadm⟩)
    · simp [break_internal_to_external]
    · simp [break_internal_to_external, hadm]
  · rintro usr rfl hadm
    simp [break_internal_to_external, hadm]

/-- Witness for C1 at a concrete break, absent viewer and admin viewer. -/
theorem break_view_masks_financial_fields_witness :
    (break_internal_to_external
      ⟨1, ⟨0⟩, "LG06", false, some "Alice", some ⟨2⟩, some 5, some ⟨3⟩, none, none⟩
      none).cost = none ∧
    (break_internal_to_external
      ⟨1, ⟨0⟩, "LG06", false, some "Alice", some ⟨2⟩, some 5, some ⟨3⟩, none, none⟩
      (some ⟨"admin", true⟩)).cost = some 5 := by
  refine ⟨((break_view_masks_financial_fields
      ⟨1, ⟨0⟩, "LG06", false, some "Alice", some ⟨2⟩, some 5, some ⟨3⟩, none, none⟩
      none).1 (Or.inl rfl)).2.1, ?_⟩
  have h := ((break_view_masks_financial_fields
      ⟨1, ⟨0⟩, "LG06", false, some "Alice", some ⟨2⟩, some 5, some ⟨3⟩, none, none⟩
      (some ⟨"admin", true⟩)).2 ⟨"admin", true⟩ rfl rfl).2.1
  simpa using h

/-- C9: the two duplicated translation implementations,
`break_internal_to_external` of `api.py` and `break_internal_to_external`
of `cookiebreaks/api/routers/utils.py`, agree field for field on every
internal break record and every viewer. -/
theorem break_translations_agree (b : BreakInternal) (u : Option User) :
    (break_internal_to_external b u).id = (break_internal_to_external_utils b u).id ∧
    (break_internal_to_external b u).break_time = (break_internal_to_external_utils b u).break_time ∧
    (break_internal_to_external b u).location = (break_internal_to_external_utils b u).location ∧
    (break_internal_to_external b u).holiday = (break_internal_to_external_utils b u).holiday ∧
    (break_internal_to_external b u).host = (break_internal_to_external_utils b u).host ∧
    (break_internal_to_external b u).break_announced
      = (break_internal_to_external_utils b u).break_announced ∧
    (break_internal_to_external b u).cost = (break_internal_to_external_utils b u).cost ∧
    (break_internal_to_external b u).host_reimbursed
      = (break_internal_to_external_utils b u).host_reimbursed ∧
    (break_internal_to_external b u).admin_claimed
      = (break_internal_to_external_utils b u).admin_claimed ∧
    (break_internal_to_external b u).admin_reimbursed
      = (break_internal_to_external_utils b u).admin_reimbursed := by
  rcases u with _ | u
  · simp [break_internal_to_external, break_internal_to_external_utils]
  · by_cases hadm : u.admin <;>
      simp [break_internal_to_external, break_internal_to_external_utils, hadm]

/-- Error taxonomy of spec section 7: domain errors surfaced by the
lifecycle and aggregation operations. -/
inductive ApiError where
  | notFoundError
  | invalidStateError
deriving DecidableEq, Repr

/-- The shared break/claim store (spec section 5: the single logical
resource behind the persistence interface).  The id counters supply
fresh primary keys. -/
structure Store where
  breaks : List BreakInternal
  claims : List ClaimRecord
  next_break_id : Int
  next_claim_id : Int
deriving DecidableEq, Repr

/-- The empty store a fresh deployment starts from. -/
def Store.init : Store :=
  { breaks := [], claims := [], next_break_id := 1, next_claim_id := 1 }

/-- Look a break up by id in the store. -/
def findBreak (s : Store) (break_id : Int) : Option BreakInternal :=
  s.breaks.find? (fun b => b.id == break_id)

/-- Apply an update to every stored break with the given id
(the store-level `UPDATE ... WHERE break_id = ...`). -/
def updateBreak (s : Store) (break_id : Int) (f : BreakInternal → BreakInternal) : Store :=
  { s with breaks := s.breaks.map (fun b => if b.id == break_id then f b else b) }

/-- Modelled from the spec: `insert_host` of the `database` module (not
under the available sources), the store side of `assignHost(breakId,
hostName)` (spec section 4.1): `NotFoundError` if no such break,
`InvalidStateError` if the break is a holiday break or already has a
host; on success sets `host` and leaves `announced` unset.  The argument
order `(host_name, break_id)` follows the call in `api.py` line 311. -/
def insert_host (s : Store) (host_name : String) (break_id : Int) : Except ApiError Store :=
  match findBreak s break_id with
  | none => .error .notFoundError
  | some b =>
    if b.holiday || b.host.isSome then .error .invalidStateError
    else .ok (updateBreak s break_id (fun c => { c with host := some host_name }))

/-- Modelled from the spec: `announce_specific` of the `tasks.announce`
module (not under the available sources), the state transition of
`announce(breakId)` (spec section 4.1): `NotFoundError` if no such
break, `InvalidStateError` if the host is not set or the break is
already announced; on success sets `announced` to the current time.  The
notification side effect is out of scope and never rolls the transition
back. -/
def announce_specific (s : Store) (now : Nat) (break_id : Int) : Except ApiError Store :=
  match findBreak s break_id with
  | none => .error .notFoundError
  | some b =>
    if b.host.isNone || b.break_announced.isSome then .error .invalidStateError
    else .ok (updateBreak s break_id (fun c => { c with break_announced := some ⟨now⟩ }))

/-- Modelled from the spec: `reimburse_and_mask_host` of the `database`
module (not under the available sources), the store side of
`recordHostReimbursement(breakId, cost)` (spec sections 4.1 and 8):
requires `announced` set and `host_reimbursed` unset, failing with
`InvalidStateError` otherwise; on success sets `cost` and
`host_reimbursed` to the current time and masks the break's host with
the non-identifying placeholder.  The placeholder is the null value: the
section 8 scenario has the external view show `host: null` after
reimbursement, and the translation layer in the sources copies the
stored host verbatim. -/
def reimburse_and_mask_host (s : Store) (now : Nat) (break_id : Int) (cost : Rat) :
    Except ApiError Store :=
  match findBreak s break_id with
  | none => .error .notFoundError
  | some b =>
    if b.break_announced.isNone || b.host_reimbursed.isSome then .error .invalidStateError
    else .ok (updateBreak s break_id (fun c =>
      { c with cost := some cost, host_reimbursed := some ⟨now⟩, host := none }))

/-- Modelled from the spec: `claim_for_breaks` of the `database` module
(not under the available sources), the store side of
`createClaim(breakIds)` (spec section 4.2): fails with `NotFoundError`
if some named id has no break, with `InvalidStateError` if any named
break is not host-reimbursed or is already claimed; on success creates a
claim record whose `claim_amount` is the sum of the member breaks' costs
and sets each member break's `admin_claimed`.  The named ids are treated
as a set (spec section 3: `breaks_claimed` is a set of references). -/
def claim_for_breaks (s : Store) (now : Nat) (break_ids : List Int) : Except ApiError Store :=
  if break_ids.any (fun i => (findBreak s i).isNone) then .error .notFoundError
  else if s.breaks.any (fun b =>
      break_ids.contains b.id && (b.host_reimbursed.isNone || b.admin_claimed.isSome)) then
    .error .invalidStateError
  else
    let members := break_ids.dedup.filterMap (findBreak s)
    let amount := (members.map (fun b => b.cost.getD 0)).sum
    let newClaim : ClaimRecord :=
      { id := s.next_claim_id
        claim_date := ⟨now⟩
        breaks_claimed := break_ids.dedup
        claim_amount := amount
        claim_reimbursed := none }
    .ok { s with
      breaks := s.breaks.map (fun b =>
        if break_ids.contains b.id then { b with admin_claimed := some ⟨now⟩ } else b)
      claims := s.claims ++ [newClaim]
      next_claim_id := s.next_claim_id + 1 }

/-- Modelled from the spec: `claim_reimbursed` of the `database` module
(not under the available sources), the store side of
`markReimbursed(breakId)` (spec section 4.2): resolves the claim owning
the given break, failing with `NotFoundError` if the break is unclaimed;
sets `claim_reimbursed` on that claim and propagates `admin_reimbursed`
to every member break of that claim and to no other break.  The spec
leaves double-invocation behaviour open; here a second invocation
succeeds again, refreshing the timestamps. -/
def claim_reimbursed (s : Store) (now : Nat) (break_id : Int) : Except ApiError Store :=
  match s.claims.find? (fun r => r.breaks_claimed.contains break_id) with
  | none => .error .notFoundError
  | some r =>
    .ok { s with
      claims := s.claims.map (fun c =>
        if c.id == r.id then { c with claim_reimbursed := some ⟨now⟩ } else c)
      breaks := s.breaks.map (fun b =>
        if r.breaks_claimed.contains b.id then { b with admin_reimbursed := some ⟨now⟩ } else b) }

/-- A recurrence rule for `createBreaks` (spec section 4.1): a target
count of occurrences from a start time with a fixed period (e.g. weekly
on a fixed weekday). -/
structure Schedule where
  start : Nat
  period : Nat
  count : Nat
deriving DecidableEq, Repr

/-- The break times a recurrence rule computes. -/
def schedule_times (r : Schedule) : List Nat :=
  (List.range r.count).map (fun k => r.start + k * r.period)

/-- A fresh break record as created at schedule time (spec section 3:
created with no host and every later-stage field unset). -/
def freshBreak (id : Int) (t : Nat) (location : String) : BreakInternal :=
  { id := id, break_time := ⟨t⟩, location := location, holiday := false,
    host := none, break_announced := none, cost := none,
    host_reimbursed := none, admin_claimed := none, admin_reimbursed := none }

/-- Whether some stored break already has the given break time. -/
def hasTime (s : Store) (t : Nat) : Bool :=
  s.breaks.any (fun b => b.break_time.datetime == t)

/-- Insert one computed break time unless a break with that time already
exists (the per-row step of the idempotent bulk insert). -/
def insert_break_if_missing (s : Store) (location : String) (t : Nat) : Store :=
  if hasTime s t then s
  else { s with
    breaks := s.breaks ++ [freshBreak s.next_break_id t location]
    next_break_id := s.next_break_id + 1 }

/-- Modelled from the spec: `insert_missing_breaks` of the `database`
module (not under the available sources), the store side of
`createBreaks(schedule)` called by `update` in `src/tasks/update.py`
(spec section 4.1): an idempotent bulk insert that inserts only breaks
whose computed `break_time` does not already exist. -/
def insert_missing_breaks (s : Store) (location : String) (r : Schedule) : Store :=
  (schedule_times r).foldl (fun acc t => insert_break_if_missing acc location t) s

/-- Tri-state filter match (spec section 4.3): an absent predicate
constrains nothing; a present one must equal the record's value. -/
def matchesTri (f : Option Bool) (v : Bool) : Bool :=
  match f with
  | none => true
  | some b => b == v

/-- Modelled from the spec: the break filter record (`structs.BreakFilters`,
not under the available sources).  Field order follows the constructor
calls in `api.py`; semantics follow spec section 4.3. -/
structure BreakFilters where
  number : Option Nat := none
  past : Option Bool := none
  hosted : Option Bool := none
  holiday : Option Bool := none
  host_reimbursed : Option Bool := none
  admin_claimed : Option Bool := none
  admin_reimbursed : Option Bool := none
deriving DecidableEq, Repr

/-- Modelled from the spec: the claim filter record
(`structs.ClaimFilters`): a single tri-state `reimbursed` predicate. -/
structure ClaimFilters where
  reimbursed : Option Bool := none
deriving DecidableEq, Repr

/-- Whether a break matches every present predicate of a filter (spec
section 4.3: independent optional predicates combined with AND). -/
def breakMatches (now : Nat) (f : BreakFilters) (b : BreakInternal) : Bool :=
  matchesTri f.past (decide (b.break_time.datetime < now)) &&
  matchesTri f.hosted b.host.isSome &&
  matchesTri f.holiday b.holiday &&
  matchesTri f.host_reimbursed b.host_reimbursed.isSome &&
  matchesTri f.admin_claimed b.admin_claimed.isSome &&
  matchesTri f.admin_reimbursed b.admin_reimbursed.isSome

/-- Modelled from the spec: `get_break_objects` of the `database` module
(not under the available sources), the filter-based break query (spec
section 4.3): keeps the breaks matching the filter, orders by
`break_time` (descending for past queries, ascending otherwise) and caps
the result count at `number` when present. -/
def get_break_objects (s : Store) (now : Nat) (f : BreakFilters) : List BreakInternal :=
  let matching := s.breaks.filter (breakMatches now f)
  let ordered :=
    if f.past = some true then
      matching.mergeSort (fun a b => decide (b.break_time.datetime ≤ a.break_time.datetime))
    else
      matching.mergeSort (fun a b => decide (a.break_time.datetime ≤ b.break_time.datetime))
  match f.number with
  | none => ordered
  | some n => ordered.take n

/-- Expand a stored claim record with its member break records, as the
claim query returns claims (spec section 4.2: each claim expanded with
its member breaks). -/
def expand_claim (s : Store) (r : ClaimRecord) : ClaimInternal :=
  { id := r.id
    claim_date := r.claim_date
    breaks_claimed := r.breaks_claimed.filterMap (findBreak s)
    claim_amount := r.claim_amount
    claim_reimbursed := r.claim_reimbursed }

/-- Modelled from the spec: `get_claims` of the `database` module (not
under the available sources), the filter-based claim query (spec
sections 4.2 and 4.3): keeps the claims matching the tri-state
`reimbursed` predicate, orders by `claim_date` and expands each with its
member breaks. -/
def get_claims (s : Store) (f : ClaimFilters) : List ClaimInternal :=
  (((s.claims.filter (fun r => matchesTri f.reimbursed r.claim_reimbursed.isSome)).mergeSort
      (fun a b => decide (a.claim_date.datetime ≤ b.claim_date.datetime))).map
    (expand_claim s))

/-- Out-of-band edit of a stored break's cost (spec section 8: a
constituent break's `cost` mutated through an out-of-band path, i.e. not
through any lifecycle operation). -/
def set_cost_raw (s : Store) (break_id : Int) (c : Option Rat) : Store :=
  updateBreak s break_id (fun b => { b with cost := c })

/-- The `POST /host` handler `set_host` of `api.py` (lines 304-312): it
declares no user or token dependency, runs `insert_host` and returns the
raw internal records of `get_break_objects(BreakFilters(past=False))`
with no translation applied.  The `viewer` argument stands for the
caller identity the HTTP layer knows; the handler ignores it. -/
def set_host_endpoint (s : Store) (now : Nat) (break_id : Int) (host_name : String)
    (viewer : Option User) : Except ApiError (Store × List BreakInternal) :=
  match insert_host s host_name break_id with
  | .error e => .error e
  | .ok s2 => .ok (s2, get_break_objects s2 now { past := some false })

/-- The `POST /reimburse` handler `reimburse_host` of `api.py`
(lines 315-323): it declares no user or token dependency, runs
`reimburse_and_mask_host` and returns the raw internal records of
`get_break_objects(BreakFilters())` with no translation applied.  The
`viewer` argument stands for the caller identity the HTTP layer knows;
the handler ignores it. -/
def reimburse_host_endpoint (s : Store) (now : Nat) (break_id : Int) (cost : Rat)
    (viewer : Option User) : Except ApiError (Store × List BreakInternal) :=
  match reimburse_and_mask_host s now break_id cost with
  | .error e => .error e
  | .ok s2 => .ok (s2, get_break_objects s2 now {})

/-- The operations reachable through the public API (spec section 6) that
mutate the break/claim store. -/
inductive Op where
  | assignHost (break_id : Int) (host_name : String)
  | announceBreak (break_id : Int)
  | reimburseHost (break_id : Int) (cost : Rat)
  | createClaim (break_ids : List Int)
  | markReimbursed (break_id : Int)
  | createBreaks (location : String) (sched : Schedule)
deriving DecidableEq, Repr

/-- Dispatch an operation to its store transition. -/
def applyOp (s : Store) (now : Nat) (op : Op) : Except ApiError Store :=
  match op with
  | .assignHost i name => insert_host s name i
  | .announceBreak i => announce_specific s now i
  | .reimburseHost i c => reimburse_and_mask_host s now i c
  | .createClaim ids => claim_for_breaks s now ids
  | .markReimbursed i => claim_reimbursed s now i
  | .createBreaks loc r => .ok (insert_missing_breaks s loc r)

/-- One timed API request: a failed operation surfaces its domain error
to the caller and leaves the store as it was (spec section 7). -/
def step (s : Store) (t : Nat × Op) : Store :=
  match applyOp s t.1 t.2 with
  | .ok s2 => s2
  | .error _ => s

/-- Run a sequence of timed API requests against a store. -/
def run (s : Store) (ops : List (Nat × Op)) : Store :=
  ops.foldl step s

/-- The invariant chain of spec section 3 on a single break record:
`announced` requires `host` set; `cost` and `host_reimbursed` require
`announced`; `admin_claimed` requires `host_reimbursed`;
`admin_reimbursed` requires `admin_claimed`. -/
def chainInv (b : BreakInternal) : Prop :=
  (b.break_announced.isSome = true → b.host.isSome = true) ∧
  (b.cost.isSome = true ∨ b.host_reimbursed.isSome = true → b.break_announced.isSome = true) ∧
  (b.admin_claimed.isSome = true → b.host_reimbursed.isSome = true) ∧
  (b.admin_reimbursed.isSome = true → b.admin_claimed.isSome = true)

instance (b : BreakInternal) : Decidable (chainInv b) := by
  unfold chainInv
  infer_instance

/-- The invariant chain with its first link weakened to account for host
masking: when the host is reimbursed, the break's host is replaced by
the null placeholder, so an announced break has a host set or is
host-reimbursed. -/
def chainInvMasked (b : BreakInternal) : Prop :=
  (b.break_announced.isSome = true →
    b.host.isSome = true ∨ b.host_reimbursed.isSome = true) ∧
  (b.cost.isSome = true ∨ b.host_reimbursed.isSome = true → b.break_announced.isSome = true) ∧
  (b.admin_claimed.isSome = true → b.host_reimbursed.isSome = true) ∧
  (b.admin_reimbursed.isSome = true → b.admin_claimed.isSome = true)

instance (b : BreakInternal) : Decidable (chainInvMasked b) := by
  unfold chainInvMasked
  infer_instance

/-- The inductive store invariant: every break satisfies the (masked)
chain; every break referenced by a claim is marked claimed; break ids
are unique primary keys below the fresh-id counter; claims reference
only already-allocated break ids. -/
def storeInv (s : Store) : Prop :=
  (∀ b ∈ s.breaks, chainInvMasked b) ∧
  (∀ r ∈ s.claims, ∀ b ∈ s.breaks,
    r.breaks_claimed.contains b.id = true → b.admin_claimed.isSome = true) ∧
  (s.breaks.map (fun b => b.id)).Nodup ∧
  (∀ b ∈ s.breaks, b.id < s.next_break_id) ∧
  (∀ r ∈ s.claims, ∀ i ∈ r.breaks_claimed, i < s.next_break_id)

theorem find_break_of_mem (l : List BreakInternal)
    (hnd : (l.map (fun b => b.id)).Nodup) (b : BreakInternal) (hb : b ∈ l) :
    l.find? (fun x => x.id == b.id) = some b := by
  induction l with
  | nil => cases hb
  | cons c t ih =>
    by_cases hc : (c.id == b.id) = true
    · have hcb : c = b := by
        rcases List.mem_cons.mp hb with h | h
        · exact h.symm
        · exfalso
          have hmem : b.id ∈ t.map (fun b => b.id) := List.mem_map_of_mem _ h
          have hnotin := (List.nodup_cons.mp hnd).1
          rw [beq_iff_eq] at hc
          have hcmem : c.id ∈ t.map (fun b => b.id) := by rw [hc]; exact hmem
          exact hnotin hcmem
      rw [List.find?_cons_of_pos t hc, hcb]
    · have hbt : b ∈ t := by
        rcases List.mem_cons.mp hb with h | h
        · exfalso
          rw [h] at hc
          simp at hc
        · exact h
      rw [List.find?_cons_of_neg t (by simpa using hc)]
      exact ih (List.nodup_cons.mp hnd).2 hbt

theorem eq_of_findBreak (s : Store) (hnd : (s.breaks.map (fun b => b.id)).Nodup)
    (i : Int) (b0 : BreakInternal) (hfind : findBreak s i = some b0)
    (a : BreakInternal) (ha : a ∈ s.breaks) (hai : a.id = i) : a = b0 := by
  have h2 : s.breaks.find? (fun x => x.id == a.id) = some a :=
    find_break_of_mem s.breaks hnd a ha
  rw [hai] at h2
  unfold findBreak at hfind
  rw [hfind] at h2
  injection h2 with h2
  exact h2.symm

theorem mem_updateBreak (s : Store) (i : Int) (f : BreakInternal → BreakInternal)
    (b2 : BreakInternal) (h : b2 ∈ (updateBreak s i f).breaks) :
    ∃ a ∈ s.breaks, b2 = if a.id == i then f a else a := by
  unfold updateBreak at h
  simp only [List.mem_map] at h
  obtain ⟨a, ha, hval⟩ := h
  exact ⟨a, ha, hval.symm⟩

theorem updateBreak_map_id (s : Store) (i : Int) (f : BreakInternal → BreakInternal)
    (hf : ∀ b, (f b).id = b.id) :
    (updateBreak s i f).breaks.map (fun b => b.id) = s.breaks.map (fun b => b.id) := by
  unfold updateBreak
  simp only [List.map_map]
  apply List.map_congr_left
  intro a _
  show (if a.id == i then f a else a).id = a.id
  by_cases hc : (a.id == i) = true
  · rw [if_pos hc, hf]
  · rw [if_neg hc]

theorem storeInv_updateBreak (s : Store) (i : Int) (f : BreakInternal → BreakInternal)
    (hinv : storeInv s)
    (hid : ∀ b, (f b).id = b.id)
    (hclaim : ∀ b, b.admin_claimed.isSome = true → (f b).admin_claimed.isSome = true)
    (hchain : ∀ b ∈ s.breaks, b.id = i → chainInvMasked (f b)) :
    storeInv (updateBreak s i f) := by
  obtain ⟨hA, hB, hC, hD, hE⟩ := hinv
  refine ⟨?_, ?_, ?_, ?_, ?_⟩
  · intro b2 hb2
    obtain ⟨a, ha, hval⟩ := mem_updateBreak s i f b2 hb2
    by_cases hc : (a.id == i) = true
    · rw [hval, if_pos hc]
      exact hchain a ha (beq_iff_eq.mp hc)
    · rw [hval, if_neg hc]
      exact hA a ha
  · intro r hr b2 hb2 hcont
    obtain ⟨a, ha, hval⟩ := mem_updateBreak s i f b2 hb2
    by_cases hc : (a.id == i) = true
    · rw [hval, if_pos hc] at hcont ⊢
      rw [hid] at hcont
      exact hclaim a (hB r hr a ha hcont)
    · rw [hval, if_neg hc] at hcont ⊢
      exact hB r hr a ha hcont
  · rw [updateBreak_map_id s i f hid]
    exact hC
  · intro b2 hb2
    obtain ⟨a, ha, hval⟩ := mem_updateBreak s i f b2 hb2
    have hb2a : b2.id = a.id := by
      rw [hval]
      by_cases hc : (a.id == i) = true
      · rw [if_pos hc, hid]
      · rw [if_neg hc]
    rw [hb2a]
    exact hD a ha
  · exact hE

theorem storeInv_insert_host (s : Store) (name : String) (i : Int) (s2 : Store)
    (hinv : storeInv s) (h : insert_host s name i = .ok s2) : storeInv s2 := by
  unfold insert_host at h
  split at h
  · cases h
  · split at h
    · cases h
    · injection h with h
      rw [← h]
      apply storeInv_updateBreak s i _ hinv
      · intro b; rfl
      · intro b hb; exact hb
      · intro b hb _
        obtain ⟨_, h2, h3, h4⟩ := hinv.1 b hb
        exact ⟨fun _ => Or.inl (by simp), h2, h3, h4⟩

theorem storeInv_announce (s : Store) (now : Nat) (i : Int) (s2 : Store)
    (hinv : storeInv s) (h : announce_specific s now i = .ok s2) : storeInv s2 := by
  unfold announce_specific at h
  split at h
  · cases h
  next b0 hfind =>
    split at h
    · cases h
    next hg =>
      injection h with h
      rw [← h]
      apply storeInv_updateBreak s i _ hinv
      · intro b; rfl
      · intro b hb; exact hb
      · intro b hb hbi
        have hb0 : b = b0 := eq_of_findBreak s hinv.2.2.1 i b0 hfind b hb hbi
        have hhost : b0.host.isSome = true := by
          simp only [Bool.or_eq_true, not_or] at hg
          have h1 := hg.1
          cases hh : b0.host with
          | none => rw [hh] at h1; simp at h1
          | some _ => simp
        obtain ⟨_, _, h3, h4⟩ := hinv.1 b hb
        refine ⟨fun _ => Or.inl ?_, fun _ => by simp, h3, h4⟩
        show b.host.isSome = true
        rw [hb0]
        exact hhost

theorem storeInv_reimburse (s : Store) (now : Nat) (i : Int) (c : Rat) (s2 : Store)
    (hinv : storeInv s) (h : reimburse_and_mask_host s now i c = .ok s2) : storeInv s2 := by
  unfold reimburse_and_mask_host at h
  split at h
  · cases h
  next b0 hfind =>
    split at h
    · cases h
    next hg =>
      injection h with h
      rw [← h]
      apply storeInv_updateBreak s i _ hinv
      · intro b; rfl
      · intro b hb; exact hb
      · intro b hb hbi
        have hb0 : b = b0 := eq_of_findBreak s hinv.2.2.1 i b0 hfind b hb hbi
        have hann : b0.break_announced.isSome = true := by
          simp only [Bool.or_eq_true, not_or] at hg
          have h1 := hg.1
          cases hh : b0.break_announced with
          | none => rw [hh] at h1; simp at h1
          | some _ => simp
        obtain ⟨_, _, _, h4⟩ := hinv.1 b hb
        refine ⟨fun _ => Or.inr (by simp), fun _ => ?_, fun _ => by simp, fun ha => h4 ha⟩
        show b.break_announced.isSome = true
        rw [hb0]
        exact hann

theorem storeInv_claim_for_breaks (s : Store) (now : Nat) (ids : List Int) (s2 : Store)
    (hinv : storeInv s) (h : claim_for_breaks s now ids = .ok s2) : storeInv s2 := by
  obtain ⟨hA, hB, hC, hD, hE⟩ := hinv
  unfold claim_for_breaks at h
  split at h
  · cases h
  next hnf =>
    split at h
    · cases h
    next hbad =>
      injection h with h
      rw [← h]
      have hbad2 : ∀ b ∈ s.breaks, ids.contains b.id = true → b.host_reimbursed.isSome = true := by
        intro b hb hcont
        by_cases hr : b.host_reimbursed.isSome = true
        · exact hr
        · exfalso
          apply hbad
          refine List.any_eq_true.mpr ⟨b, hb, ?_⟩
          have : b.host_reimbursed.isNone = true := by
            cases hh : b.host_reimbursed
            · rfl
            · rw [hh] at hr; simp at hr
          rw [hcont, this]
          rfl
      refine ⟨?_, ?_, ?_, ?_, ?_⟩
      · intro b2 hb2
        simp only [List.mem_map] at hb2
        obtain ⟨a, ha, hval⟩ := hb2
        by_cases hc : ids.contains a.id = true
        · rw [← hval, if_pos hc]
          obtain ⟨h1, h2, _, _⟩ := hA a ha
          exact ⟨h1, h2, fun _ => hbad2 a ha hc, fun _ => by simp⟩
        · rw [← hval, if_neg hc]
          exact hA a ha
      · intro r hr b2 hb2 hcont
        simp only [List.mem_map] at hb2
        obtain ⟨a, ha, hval⟩ := hb2
        rcases List.mem_append.mp hr with hro | hrn
        · by_cases hc : ids.contains a.id = true
          · rw [← hval, if_pos hc]
            simp
          · rw [← hval, if_neg hc]
            rw [← hval, if_neg hc] at hcont
            exact hB r hro a ha hcont
        · have hrdef := List.mem_singleton.mp hrn
          subst hrdef
          simp only at hcont
          have hc : ids.contains a.id = true := by
            have hb2id : b2.id = a.id := by
              rw [← hval]
              by_cases hc : ids.contains a.id = true
              · rw [if_pos hc]
              · rw [if_neg hc]
            rw [hb2id] at hcont
            have hmem : a.id ∈ ids.dedup := List.elem_iff.mp hcont
            exact List.elem_iff.mpr (List.mem_dedup.mp hmem)
          rw [← hval, if_pos hc]
          simp
      · have : (s.breaks.map (fun b =>
            if ids.contains b.id = true then { b with admin_claimed := some ⟨now⟩ } else b)).map
              (fun b => b.id) = s.breaks.map (fun b => b.id) := by
          simp only [List.map_map]
          apply List.map_congr_left
          intro a _
          show (if ids.contains a.id = true then { a with admin_claimed := some ⟨now⟩ } else a).id
            = a.id
          by_cases hc : ids.contains a.id = true
          · rw [if_pos hc]
          · rw [if_neg hc]
        simp only at this ⊢
        rw [this]
        exact hC
      · intro b2 hb2
        simp only [List.mem_map] at hb2
        obtain ⟨a, ha, hval⟩ := hb2
        have hb2id : b2.id = a.id := by
          rw [← hval]
          by_cases hc : ids.contains a.id = true
          · rw [if_pos hc]
          · rw [if_neg hc]
        rw [hb2id]
        exact hD a ha
      · intro r hr j hj
        rcases List.mem_append.mp hr with hro | hrn
        · exact hE r hro j hj
        · have hrdef := List.mem_singleton.mp hrn
          subst hrdef
          simp only at hj
          have hjids : j ∈ ids := List.mem_dedup.mp hj
          have hfound : (findBreak s j).isNone = false := by
            by_cases hf : (findBreak s j).isNone = true
            · exfalso
              apply hnf
              exact List.any_eq_true.mpr ⟨j, hjids, hf⟩
            · cases hff : (findBreak s j).isNone
              · rfl
              · exact absurd hff hf
          cases hfb : findBreak s j with
          | none => rw [hfb] at hfound; simp at hfound
          | some bj =>
            have hfb2 : s.breaks.find? (fun b => b.id == j) = some bj := hfb
            have hmem : bj ∈ s.breaks := List.mem_of_find?_eq_some hfb2
            have hpred := List.find?_some hfb2
            have hid : bj.id = j := beq_iff_eq.mp hpred
            rw [← hid]
            exact hD bj hmem

theorem storeInv_claim_reimbursed (s : Store) (now : Nat) (i : Int) (s2 : Store)
    (hinv : storeInv s) (h : claim_reimbursed s now i = .ok s2) : storeInv s2 := by
  obtain ⟨hA, hB, hC, hD, hE⟩ := hinv
  unfold claim_reimbursed at h
  split at h
  · cases h
  next r hfind =>
    injection h with h
    rw [← h]
    have hrmem : r ∈ s.claims := List.mem_of_find?_eq_some hfind
    refine ⟨?_, ?_, ?_, ?_, ?_⟩
    · intro b2 hb2
      simp only [List.mem_map] at hb2
      obtain ⟨a, ha, hval⟩ := hb2
      by_cases hc : r.breaks_claimed.contains a.id = true
      · rw [← hval, if_pos hc]
        obtain ⟨h1, h2, h3, _⟩ := hA a ha
        exact ⟨h1, h2, h3, fun _ => hB r hrmem a ha hc⟩
      · rw [← hval, if_neg hc]
        exact hA a ha
    · intro r2 hr2 b2 hb2 hcont
      simp only [List.mem_map] at hr2 hb2
      obtain ⟨c, hcm, hcval⟩ := hr2
      obtain ⟨a, ha, hval⟩ := hb2
      have hcbc : r2.breaks_claimed = c.breaks_claimed := by
        rw [← hcval]
        by_cases hcc : (c.id == r.id) = true
        · rw [if_pos hcc]
        · rw [if_neg hcc]
      have hb2id : b2.id = a.id := by
        rw [← hval]
        by_cases hc : r.breaks_claimed.contains a.id = true
        · rw [if_pos hc]
        · rw [if_neg hc]
      rw [hcbc, hb2id] at hcont
      have hsome := hB c hcm a ha hcont
      rw [← hval]
      by_cases hc : r.breaks_claimed.contains a.id = true
      · rw [if_pos hc]
        exact hsome
      · rw [if_neg hc]
        exact hsome
    · have heq : (s.breaks.map (fun b =>
          if r.breaks_claimed.contains b.id = true
          then { b with admin_reimbursed := some ⟨now⟩ } else b)).map (fun b => b.id)
            = s.breaks.map (fun b => b.id) := by
        simp only [List.map_map]
        apply List.map_congr_left
        intro a _
        show (if r.breaks_claimed.contains a.id = true
          then { a with admin_reimbursed := some ⟨now⟩ } else a).id = a.id
        by_cases hc : r.breaks_claimed.contains a.id = true
        · rw [if_pos hc]
        · rw [if_neg hc]
      simp only at heq ⊢
      rw [heq]
      exact hC
    · intro b2 hb2
      simp only [List.mem_map] at hb2
      obtain ⟨a, ha, hval⟩ := hb2
      have hb2id : b2.id = a.id := by
        rw [← hval]
        by_cases hc : r.breaks_claimed.contains a.id = true
        · rw [if_pos hc]
        · rw [if_neg hc]
      rw [hb2id]
      exact hD a ha
    · intro r2 hr2 j hj
      simp only [List.mem_map] at hr2
      obtain ⟨c, hcm, hcval⟩ := hr2
      have hcbc : r2.breaks_claimed = c.breaks_claimed := by
        rw [← hcval]
        by_cases hcc : (c.id == r.id) = true
        · rw [if_pos hcc]
        · rw [if_neg hcc]
      rw [hcbc] at hj
      exact hE c hcm j hj

theorem storeInv_insert_break_if_missing (s : Store) (loc : String) (t : Nat)
    (hinv : storeInv s) : storeInv (insert_break_if_missing s loc t) := by
  obtain ⟨hA, hB, hC, hD, hE⟩ := hinv
  unfold insert_break_if_missing
  by_cases hht : hasTime s t = true
  · rw [if_pos hht]
    exact ⟨hA, hB, hC, hD, hE⟩
  · rw [if_neg hht]
    refine ⟨?_, ?_, ?_, ?_, ?_⟩
    · intro b2 hb2
      rcases List.mem_append.mp hb2 with hold | hnew
      · exact hA b2 hold
      · have hb2def := List.mem_singleton.mp hnew
        subst hb2def
        refine ⟨?_, ?_, ?_, ?_⟩ <;> intro hx <;> simp [freshBreak] at hx
    · intro r hr b2 hb2 hcont
      rcases List.mem_append.mp hb2 with hold | hnew
      · exact hB r hr b2 hold hcont
      · have hb2def := List.mem_singleton.mp hnew
        subst hb2def
        exfalso
        have hjmem : s.next_break_id ∈ r.breaks_claimed := by
          have : (freshBreak s.next_break_id t loc).id = s.next_break_id := rfl
          rw [this] at hcont
          exact List.elem_iff.mp hcont
        have := hE r hr s.next_break_id hjmem
        exact lt_irrefl _ this
    · rw [List.map_append]
      rw [List.nodup_append]
      refine ⟨hC, by simp, ?_⟩
      intro x hx hx2
      simp only [List.map_cons, List.map_nil, List.mem_singleton] at hx2
      have hxval : x = (freshBreak s.next_break_id t loc).id := hx2
      have : x = s.next_break_id := hxval
      subst this
      simp only [List.mem_map] at hx
      obtain ⟨a, ha, haval⟩ := hx
      have := hD a ha
      rw [haval] at this
      exact lt_irrefl _ this
    · intro b2 hb2
      rcases List.mem_append.mp hb2 with hold | hnew
      · have := hD b2 hold
        calc b2.id < s.next_break_id := this
          _ < s.next_break_id + 1 := by omega
      · have hb2def := List.mem_singleton.mp hnew
        subst hb2def
        show s.next_break_id < s.next_break_id + 1
        omega
    · intro r hr j hj
      have := hE r hr j hj
      calc j < s.next_break_id := this
        _ < s.next_break_id + 1 := by omega

theorem storeInv_fold_insert (ts : List Nat) (s : Store) (loc : String)
    (hinv : storeInv s) :
    storeInv (ts.foldl (fun acc t => insert_break_if_missing acc loc t) s) := by
  induction ts generalizing s with
  | nil => exact hinv
  | cons t ts ih =>
    exact ih (insert_break_if_missing s loc t) (storeInv_insert_break_if_missing s loc t hinv)

theorem storeInv_insert_missing_breaks (s : Store) (loc : String) (r : Schedule)
    (hinv : storeInv s) : storeInv (insert_missing_breaks s loc r) :=
  storeInv_fold_insert (schedule_times r) s loc hinv

theorem storeInv_applyOp (s : Store) (now : Nat) (op : Op) (s2 : Store)
    (hinv : storeInv s) (h : applyOp s now op = .ok s2) : storeInv s2 := by
  cases op with
  | assignHost i name => exact storeInv_insert_host s name i s2 hinv h
  | announceBreak i => exact storeInv_announce s now i s2 hinv h
  | reimburseHost i c => exact storeInv_reimburse s now i c s2 hinv h
  | createClaim ids => exact storeInv_claim_for_breaks s now ids s2 hinv h
  | markReimbursed i => exact storeInv_claim_reimbursed s now i s2 hinv h
  | createBreaks loc r =>
    unfold applyOp at h
    injection h with h
    rw [← h]
    exact storeInv_insert_missing_breaks s loc r hinv

theorem storeInv_step (s : Store) (t : Nat × Op) (hinv : storeInv s) :
    storeInv (step s t) := by
  unfold step
  cases hap : applyOp s t.1 t.2 with
  | ok s2 => exact storeInv_applyOp s t.1 t.2 s2 hinv hap
  | error e => exact hinv

theorem storeInv_run (s : Store) (ops : List (Nat × Op)) (hinv : storeInv s) :
    storeInv (run s ops) := by
  unfold run
  induction ops generalizing s with
  | nil => exact hinv
  | cons t ts ih => exact ih (step s t) (storeInv_step s t hinv)

theorem storeInv_init : storeInv Store.init := by
  refine ⟨?_, ?_, ?_, ?_, ?_⟩ <;> simp [Store.init]

/-- C2 counterexample: the unweakened invariant chain of spec section 3
fails on a store reachable through the public API.  After creating a
break, assigning a host, announcing and recording the host
reimbursement, the break is announced but its host has been masked to
the null placeholder, violating the link that `announced` requires
`host` set. -/
theorem lifecycle_chain_counterexample :
    ¬ (∀ b ∈ (run Store.init
        [(0, .createBreaks "LG06" ⟨5, 7, 1⟩),
         (1, .assignHost 1 "Alice"),
         (2, .announceBreak 1),
         (3, .reimburseHost 1 5)]).breaks, chainInv b) := by
  decide

/-- C2 (amended): after every operation sequence reachable through the
public API from the initial store, every break satisfies the invariant
chain with its first link weakened to account for host masking:
`announced` set implies `host` set or `host_reimbursed` set (host
reimbursement masks the host); `cost` or `host_reimbursed` set implies
`announced` set; `admin_claimed` set implies `host_reimbursed` set;
`admin_reimbursed` set implies `admin_claimed` set. -/
theorem lifecycle_chain_masked_holds (ops : List (Nat × Op)) :
    ∀ b ∈ (run Store.init ops).breaks, chainInvMasked b :=
  fun b hb => (storeInv_run Store.init ops storeInv_init).1 b hb

/-- Witness for C2 at a concrete operation sequence and break. -/
theorem lifecycle_chain_masked_holds_witness :
    chainInvMasked ⟨1, ⟨5⟩, "LG06", false, none, none, none, none, none, none⟩ :=
  lifecycle_chain_masked_holds [(0, .createBreaks "LG06" ⟨5, 7, 1⟩)]
    ⟨1, ⟨5⟩, "LG06", false, none, none, none, none, none, none⟩ (by decide)

/-- C3: when every named break exists but at least one of them is not
host-reimbursed or is already claimed, `createClaim` fails with
`InvalidStateError`; since the transition returns no new store on
failure, no claim is created and no break's `admin_claimed` changes,
including for the eligible breaks in the set. -/
theorem create_claim_fails_atomically (s : Store) (now : Nat) (ids : List Int)
    (hall : ∀ i ∈ ids, (findBreak s i).isSome = true)
    (hbad : ∃ b ∈ s.breaks, b.id ∈ ids ∧
      (b.host_reimbursed = none ∨ b.admin_claimed.isSome = true)) :
    claim_for_breaks s now ids = .error .invalidStateError ∧
    ∀ s2, claim_for_breaks s now ids ≠ .ok s2 := by
  have h1 : (ids.any fun i => (findBreak s i).isNone) = false := by
    cases hany : (ids.any fun i => (findBreak s i).isNone) with
    | false => rfl
    | true =>
      exfalso
      obtain ⟨i, hi, hni⟩ := List.any_eq_true.mp hany
      have hsome := hall i hi
      rw [Option.isNone_iff_eq_none] at hni
      rw [hni] at hsome
      simp at hsome
  have h2 : (s.breaks.any fun b =>
      ids.contains b.id && (b.host_reimbursed.isNone || b.admin_claimed.isSome)) = true := by
    obtain ⟨b, hb, hbid, hcond⟩ := hbad
    refine List.any_eq_true.mpr ⟨b, hb, ?_⟩
    have hcont : ids.contains b.id = true := List.elem_iff.mpr hbid
    rcases hcond with hnone | hsome
    · have hn : b.host_reimbursed.isNone = true := by rw [hnone]; rfl
      rw [hcont, hn]
      rfl
    · rw [hcont, hsome]
      simp
  have hmain : claim_for_breaks s now ids = .error .invalidStateError := by
    unfold claim_for_breaks
    rw [h1, h2]
    simp
  refine ⟨hmain, ?_⟩
  intro s2 hcontra
  rw [hmain] at hcontra
  cases hcontra

/-- Witness for C3: a set naming one existing break that is announced
but not host-reimbursed. -/
theorem create_claim_fails_atomically_witness :
    claim_for_breaks
      ⟨[⟨1, ⟨5⟩, "LG06", false, some "Alice", some ⟨2⟩, none, none, none, none⟩], [], 2, 1⟩
      9 [1] = .error .invalidStateError :=
  (create_claim_fails_atomically
    ⟨[⟨1, ⟨5⟩, "LG06", false, some "Alice", some ⟨2⟩, none, none, none, none⟩], [], 2, 1⟩
    9 [1] (by decide) (by decide)).1

/-- C6: `assignHost` on a break that already has a host, or on a holiday
break, fails with `InvalidStateError` (the failed transition returns no
new store, so the host field is unchanged), and whenever it succeeds the
break previously had no host and was not a holiday break — it never
silently overwrites an existing host. -/
theorem assign_host_never_overwrites (s : Store) (i : Int) (name : String) :
    (∀ b, findBreak s i = some b → (b.holiday = true ∨ b.host.isSome = true) →
      insert_host s name i = .error .invalidStateError) ∧
    (∀ s2, insert_host s name i = .ok s2 →
      ∃ b, findBreak s i = some b ∧ b.host = none ∧ b.holiday = false) := by
  constructor
  · intro b hfind hcond
    have hg : (b.holiday || b.host.isSome) = true := by
      rcases hcond with h | h
      · rw [h]
        rfl
      · rw [h]
        simp
    simp [insert_host, hfind, hg]
  · intro s2 h
    unfold insert_host at h
    split at h
    · cases h
    next b hfind =>
      split at h
      · cases h
      next hg =>
        simp only [Bool.or_eq_true, not_or] at hg
        refine ⟨b, hfind, ?_, ?_⟩
        · have hh := hg.2
          cases hx : b.host with
          | none => rfl
          | some _ => rw [hx] at hh; simp at hh
        · have hh := hg.1
          cases hx : b.holiday with
          | false => rfl
          | true => rw [hx] at hh; simp at hh

/-- Witness for C6 at a break that already has a host. -/
theorem assign_host_never_overwrites_witness :
    insert_host
      ⟨[⟨1, ⟨5⟩, "LG06", false, some "Alice", some ⟨2⟩, none, none, none, none⟩], [], 2, 1⟩
      "Bob" 1 = .error .invalidStateError :=
  (assign_host_never_overwrites
    ⟨[⟨1, ⟨5⟩, "LG06", false, some "Alice", some ⟨2⟩, none, none, none, none⟩], [], 2, 1⟩
    1 "Bob").1
    ⟨1, ⟨5⟩, "LG06", false, some "Alice", some ⟨2⟩, none, none, none, none⟩
    rfl (Or.inr rfl)

/-- C5: `markReimbursed` on an unclaimed break fails with
`NotFoundError`; on a claimed break it succeeds, sets `claim_reimbursed`
on the claim owning that break, and sets `admin_reimbursed` on every
member break of that claim while leaving every non-member break
unchanged. -/
theorem mark_reimbursed_propagates (s : Store) (now : Nat) (bid : Int) :
    (s.claims.find? (fun r => r.breaks_claimed.contains bid) = none →
      claim_reimbursed s now bid = .error .notFoundError) ∧
    (∀ r, s.claims.find? (fun r => r.breaks_claimed.contains bid) = some r →
      ∃ s2, claim_reimbursed s now bid = .ok s2 ∧
        ({ r with claim_reimbursed := some ⟨now⟩ } : ClaimRecord) ∈ s2.claims ∧
        ∀ b ∈ s.breaks,
          (r.breaks_claimed.contains b.id = true →
            ({ b with admin_reimbursed := some ⟨now⟩ } : BreakInternal) ∈ s2.breaks) ∧
          (r.breaks_claimed.contains b.id = false → b ∈ s2.breaks)) := by
  constructor
  · intro hnone
    unfold claim_reimbursed
    rw [hnone]
  · intro r hfind
    refine ⟨{ s with
      claims := s.claims.map (fun c =>
        if c.id == r.id then { c with claim_reimbursed := some ⟨now⟩ } else c)
      breaks := s.breaks.map (fun b =>
        if r.breaks_claimed.contains b.id then { b with admin_reimbursed := some ⟨now⟩ } else b) },
      ?_, ?_, ?_⟩
    · unfold claim_reimbursed
      rw [hfind]
    · have hrmem : r ∈ s.claims := List.mem_of_find?_eq_some hfind
      have hc : (r.id == r.id) = true := by simp
      refine List.mem_map.mpr ⟨r, hrmem, ?_⟩
      show (if (r.id == r.id) = true
        then ({ r with claim_reimbursed := some ⟨now⟩ } : ClaimRecord) else r)
          = { r with claim_reimbursed := some ⟨now⟩ }
      rw [if_pos hc]
    · intro b hb
      constructor
      · intro hcont
        refine List.mem_map.mpr ⟨b, hb, ?_⟩
        show (if r.breaks_claimed.contains b.id = true
          then ({ b with admin_reimbursed := some ⟨now⟩ } : BreakInternal) else b)
            = { b with admin_reimbursed := some ⟨now⟩ }
        rw [if_pos hcont]
      · intro hfalse
        have hneg : ¬ (r.breaks_claimed.contains b.id = true) := by
          rw [hfalse]
          simp
        refine List.mem_map.mpr ⟨b, hb, ?_⟩
        show (if r.breaks_claimed.contains b.id = true
          then ({ b with admin_reimbursed := some ⟨now⟩ } : BreakInternal) else b) = b
        rw [if_neg hneg]

/-- Witness for C5 on a store with one claimed break. -/
theorem mark_reimbursed_propagates_witness :
    ∃ s2, claim_reimbursed
        ⟨[⟨1, ⟨5⟩, "LG06", false, none, some ⟨2⟩, some 5, some ⟨3⟩, some ⟨4⟩, none⟩],
         [⟨1, ⟨4⟩, [1], 5, none⟩], 2, 2⟩ 9 1 = .ok s2 ∧
      (⟨1, ⟨4⟩, [1], 5, some ⟨9⟩⟩ : ClaimRecord) ∈ s2.claims := by
  obtain ⟨s2, heq, hcl, _⟩ := (mark_reimbursed_propagates
    ⟨[⟨1, ⟨5⟩, "LG06", false, none, some ⟨2⟩, some 5, some ⟨3⟩, some ⟨4⟩, none⟩],
     [⟨1, ⟨4⟩, [1], 5, none⟩], 2, 2⟩ 9 1).2 ⟨1, ⟨4⟩, [1], 5, none⟩ rfl
  exact ⟨s2, heq, hcl⟩

theorem get_claims_amounts (t t2 : Store) (hcl : t2.claims = t.claims)
    (f : ClaimFilters) (u : Option User) :
    (get_claims t2 f).map (fun cl => (claim_internal_to_external cl u).claim_amount)
      = (get_claims t f).map (fun cl => cl.claim_amount) := by
  unfold get_claims
  rw [hcl]
  simp only [List.map_map]
  apply List.map_congr_left
  intro r _
  rfl

/-- C4: on success, `createClaim` appends exactly one claim record whose
`claim_amount` is the sum of the member breaks' costs as they were at
claim-creation time; an out-of-band edit of any break's cost afterwards
leaves every stored claim record unchanged, and the claim query combined
with the external translation still reports the stored `claim_amount`
values. -/
theorem claim_amount_frozen (s : Store) (now : Nat) (ids : List Int) (s2 : Store)
    (h : claim_for_breaks s now ids = .ok s2) :
    ∃ rec2 : ClaimRecord,
      s2.claims = s.claims ++ [rec2] ∧
      rec2.claim_amount
        = ((ids.dedup.filterMap (findBreak s)).map (fun b => b.cost.getD 0)).sum ∧
      (∀ bid c, (set_cost_raw s2 bid c).claims = s2.claims) ∧
      (∀ bid c u f,
        (get_claims (set_cost_raw s2 bid c) f).map
            (fun cl => (claim_internal_to_external cl u).claim_amount)
          = (get_claims s2 f).map (fun cl => cl.claim_amount)) := by
  unfold claim_for_breaks at h
  split at h
  · cases h
  · split at h
    · cases h
    · injection h with h
      let rec2 : ClaimRecord :=
        { id := s.next_claim_id
          claim_date := ⟨now⟩
          breaks_claimed := ids.dedup
          claim_amount := ((ids.dedup.filterMap (findBreak s)).map (fun b => b.cost.getD 0)).sum
          claim_reimbursed := none }
      refine ⟨rec2, ?_, rfl, ?_, ?_⟩
      · rw [← h]
      · intro bid c
        rfl
      · intro bid c u f
        exact get_claims_amounts s2 (set_cost_raw s2 bid c) rfl f u

/-- Witness for C4: a one-break claim over a break whose cost is 5. -/
theorem claim_amount_frozen_witness :
    ∃ rec2 : ClaimRecord,
      (⟨[⟨1, ⟨5⟩, "LG06", false, none, some ⟨2⟩, some 5, some ⟨3⟩, some ⟨4⟩, none⟩],
        [⟨1, ⟨4⟩, [1], 5, none⟩], 2, 2⟩ : Store).claims
        = (⟨[⟨1, ⟨5⟩, "LG06", false, none, some ⟨2⟩, some 5, some ⟨3⟩, none, none⟩],
            [], 2, 1⟩ : Store).claims ++ [rec2] ∧
      rec2.claim_amount = 5 := by
  obtain ⟨r2, h1, h2, _, _⟩ := claim_amount_frozen
    ⟨[⟨1, ⟨5⟩, "LG06", false, none, some ⟨2⟩, some 5, some ⟨3⟩, none, none⟩], [], 2, 1⟩ 4 [1]
    ⟨[⟨1, ⟨5⟩, "LG06", false, none, some ⟨2⟩, some 5, some ⟨3⟩, some ⟨4⟩, none⟩],
      [⟨1, ⟨4⟩, [1], 5, none⟩], 2, 2⟩ (by with_unfolding_all rfl)
  refine ⟨r2, h1, ?_⟩
  rw [h2]
  with_unfolding_all rfl

/-- Whether a timed request assigns a host to the given break. -/
def opAssignsHost (break_id : Int) (t : Nat × Op) : Bool :=
  match t.2 with
  | .assignHost i _ => i == break_id
  | _ => false

/-- Every stored break with the given id has its host masked to the null
placeholder. -/
def hostMaskedL (bid : Int) (l : List BreakInternal) : Prop :=
  ∀ b ∈ l, b.id = bid → b.host = none

theorem hostMaskedL_map (bid : Int) (l : List BreakInternal) (g : BreakInternal → BreakInternal)
    (hP : hostMaskedL bid l)
    (hid : ∀ a ∈ l, (g a).id = a.id)
    (hhost : ∀ a ∈ l, a.id = bid → (g a).host = a.host ∨ (g a).host = none) :
    hostMaskedL bid (l.map g) := by
  intro b2 hb2 hbid
  obtain ⟨a, ha, hval⟩ := List.mem_map.mp hb2
  rw [← hval] at hbid ⊢
  rw [hid a ha] at hbid
  rcases hhost a ha hbid with h | h
  · rw [h]
    exact hP a ha hbid
  · exact h

theorem hostMasked_insert_break_if_missing (bid : Int) (s : Store) (loc : String) (t : Nat)
    (hP : hostMaskedL bid s.breaks) :
    hostMaskedL bid (insert_break_if_missing s loc t).breaks := by
  unfold insert_break_if_missing
  by_cases h : hasTime s t = true
  · rw [if_pos h]
    exact hP
  · rw [if_neg h]
    intro b2 hb2 hbid
    rcases List.mem_append.mp hb2 with hold | hnew
    · exact hP b2 hold hbid
    · have hdef := List.mem_singleton.mp hnew
      rw [hdef]
      rfl

theorem hostMasked_fold_insert (bid : Int) (ts : List Nat) (s : Store) (loc : String)
    (hP : hostMaskedL bid s.breaks) :
    hostMaskedL bid ((ts.foldl (fun acc t => insert_break_if_missing acc loc t) s).breaks) := by
  induction ts generalizing s with
  | nil => exact hP
  | cons t ts ih =>
    exact ih (insert_break_if_missing s loc t)
      (hostMasked_insert_break_if_missing bid s loc t hP)

theorem hostMaskedL_ite_update (bid i : Int) (l : List BreakInternal)
    (f : BreakInternal → BreakInternal) (hP : hostMaskedL bid l)
    (hid : ∀ b, (f b).id = b.id)
    (hhost : ∀ b ∈ l, b.id = bid → b.id = i → (f b).host = b.host ∨ (f b).host = none) :
    hostMaskedL bid (l.map (fun b => if b.id == i then f b else b)) := by
  apply hostMaskedL_map bid l _ hP
  · intro a _
    show (if a.id == i then f a else a).id = a.id
    by_cases hc : (a.id == i) = true
    · rw [if_pos hc, hid]
    · rw [if_neg hc]
  · intro a ha habid
    by_cases hc : (a.id == i) = true
    · have := hhost a ha habid (beq_iff_eq.mp hc)
      show (if a.id == i then f a else a).host = a.host ∨
        (if a.id == i then f a else a).host = none
      rw [if_pos hc]
      exact this
    · left
      show (if a.id == i then f a else a).host = a.host
      rw [if_neg hc]


theorem hostMasked_step (bid : Int) (s : Store) (now : Nat) (op : Op)
    (hP : hostMaskedL bid s.breaks) (hop : opAssignsHost bid (now, op) = false) :
    hostMaskedL bid (step s (now, op)).breaks := by
  cases op with
  | assignHost i name =>
    cases hap : insert_host s name i with
    | error e =>
      show hostMaskedL bid (match insert_host s name i with
        | Except.ok t => t
        | Except.error _ => s).breaks
      rw [hap]
      exact hP
    | ok s2 =>
      show hostMaskedL bid (match insert_host s name i with
        | Except.ok t => t
        | Except.error _ => s).breaks
      rw [hap]
      show hostMaskedL bid s2.breaks
      have hibid : ¬ (i = bid) := by
        unfold opAssignsHost at hop
        simp only at hop
        intro hcc
        rw [hcc] at hop
        simp at hop
      unfold insert_host at hap
      split at hap
      · cases hap
      · split at hap
        · cases hap
        · injection hap with hap
          rw [← hap]
          apply hostMaskedL_ite_update bid i s.breaks _ hP
          · intro b
            rfl
          · intro b _ hbbid hbi
            exfalso
            exact hibid (hbi ▸ hbbid)
  | announceBreak i =>
    cases hap : announce_specific s now i with
    | error e =>
      show hostMaskedL bid (match announce_specific s now i with
        | Except.ok t => t
        | Except.error _ => s).breaks
      rw [hap]
      exact hP
    | ok s2 =>
      show hostMaskedL bid (match announce_specific s now i with
        | Except.ok t => t
        | Except.error _ => s).breaks
      rw [hap]
      show hostMaskedL bid s2.breaks
      unfold announce_specific at hap
      split at hap
      · cases hap
      · split at hap
        · cases hap
        · injection hap with hap
          rw [← hap]
          apply hostMaskedL_ite_update bid i s.breaks _ hP
          · intro b
            rfl
          · intro b _ _ _
            left
            rfl
  | reimburseHost i c =>
    cases hap : reimburse_and_mask_host s now i c with
    | error e =>
      show hostMaskedL bid (match reimburse_and_mask_host s now i c with
        | Except.ok t => t
        | Except.error _ => s).breaks
      rw [hap]
      exact hP
    | ok s2 =>
      show hostMaskedL bid (match reimburse_and_mask_host s now i c with
        | Except.ok t => t
        | Except.error _ => s).breaks
      rw [hap]
      show hostMaskedL bid s2.breaks
      unfold reimburse_and_mask_host at hap
      split at hap
      · cases hap
      · split at hap
        · cases hap
        · injection hap with hap
          rw [← hap]
          apply hostMaskedL_ite_update bid i s.breaks _ hP
          · intro b
            rfl
          · intro b _ _ _
            right
            rfl
  | createClaim ids =>
    cases hap : claim_for_breaks s now ids with
    | error e =>
      show hostMaskedL bid (match claim_for_breaks s now ids with
        | Except.ok t => t
        | Except.error _ => s).breaks
      rw [hap]
      exact hP
    | ok s2 =>
      show hostMaskedL bid (match claim_for_breaks s now ids with
        | Except.ok t => t
        | Except.error _ => s).breaks
      rw [hap]
      show hostMaskedL bid s2.breaks
      unfold claim_for_breaks at hap
      split at hap
      · cases hap
      · split at hap
        · cases hap
        · injection hap with hap
          rw [← hap]
          apply hostMaskedL_map bid s.breaks _ hP
          · intro a _
            show (if ids.contains a.id = true then _ else a).id = a.id
            by_cases hc : ids.contains a.id = true
            · rw [if_pos hc]
            · rw [if_neg hc]
          · intro a _ _
            left
            show (if ids.contains a.id = true then _ else a).host = a.host
            by_cases hc : ids.contains a.id = true
            · rw [if_pos hc]
            · rw [if_neg hc]
  | markReimbursed i =>
    cases hap : claim_reimbursed s now i with
    | error e =>
      show hostMaskedL bid (match claim_reimbursed s now i with
        | Except.ok t => t
        | Except.error _ => s).breaks
      rw [hap]
      exact hP
    | ok s2 =>
      show hostMaskedL bid (match claim_reimbursed s now i with
        | Except.ok t => t
        | Except.error _ => s).breaks
      rw [hap]
      show hostMaskedL bid s2.breaks
      unfold claim_reimbursed at hap
      split at hap
      · cases hap
      next r hfind =>
        injection hap with hap
        rw [← hap]
        apply hostMaskedL_map bid s.breaks _ hP
        · intro a _
          show (if r.breaks_claimed.contains a.id = true then _ else a).id = a.id
          by_cases hc : r.breaks_claimed.contains a.id = true
          · rw [if_pos hc]
          · rw [if_neg hc]
        · intro a _ _
          left
          show (if r.breaks_claimed.contains a.id = true then _ else a).host = a.host
          by_cases hc : r.breaks_claimed.contains a.id = true
          · rw [if_pos hc]
          · rw [if_neg hc]
  | createBreaks loc sched =>
    show hostMaskedL bid (match (Except.ok (insert_missing_breaks s loc sched) :
        Except ApiError Store) with
      | Except.ok t => t
      | Except.error _ => s).breaks
    exact hostMasked_fold_insert bid (schedule_times sched) s loc hP

theorem hostMasked_run (bid : Int) (s : Store) (ops : List (Nat × Op))
    (hP : hostMaskedL bid s.breaks)
    (hops : ∀ t ∈ ops, opAssignsHost bid t = false) :
    hostMaskedL bid (run s ops).breaks := by
  unfold run
  induction ops generalizing s with
  | nil => exact hP
  | cons t ts ih =>
    apply ih (step s t)
    · obtain ⟨now, op⟩ := t
      exact hostMasked_step bid s now op hP (hops (now, op) (List.mem_cons_self _ ts))
    · intro t2 ht2
      exact hops t2 (List.mem_cons_of_mem t ht2)

theorem break_external_host (b : BreakInternal) (u : Option User) :
    (break_internal_to_external b u).host = b.host := by
  cases u with
  | none => rfl
  | some usr =>
    by_cases ha : usr.admin = true <;> simp [break_internal_to_external, ha]

/-- C7 counterexample: after a successful host reimbursement on break 1,
a later `assignHost` succeeds again (the masked host is null, so the
already-has-a-host guard does not fire) and a subsequent external
non-admin read of that break shows the new host name instead of the null
placeholder. -/
theorem host_mask_counterexample :
    ∃ b ∈ (run Store.init
        [(0, .createBreaks "LG06" ⟨5, 7, 1⟩),
         (1, .assignHost 1 "Alice"),
         (2, .announceBreak 1),
         (3, .reimburseHost 1 5),
         (4, .assignHost 1 "Bob")]).breaks,
      b.host_reimbursed.isSome = true ∧
      (break_internal_to_external b none).host = some "Bob" := by
  decide

/-- C7 (amended): after `recordHostReimbursement` succeeds on a break,
every subsequent external read of that break — through any sequence of
further API operations that does not assign a new host to it — shows its
host as the null placeholder rather than the original host name; in this
model the stored record itself holds the placeholder. -/
theorem host_masked_after_reimbursement (s : Store) (now : Nat) (bid : Int) (c : Rat)
    (s2 : Store) (h : reimburse_and_mask_host s now bid c = .ok s2)
    (ops : List (Nat × Op)) (hops : ∀ t ∈ ops, opAssignsHost bid t = false) :
    ∀ b ∈ (run s2 ops).breaks, b.id = bid →
      b.host = none ∧ ∀ u, (break_internal_to_external b u).host = none := by
  have hP2 : hostMaskedL bid s2.breaks := by
    unfold reimburse_and_mask_host at h
    split at h
    · cases h
    next b0 hfind =>
      split at h
      · cases h
      next hg =>
        injection h with h
        rw [← h]
        intro b2 hb2 hbid
        obtain ⟨a, ha, hval⟩ := mem_updateBreak s bid _ b2 hb2
        by_cases hc : (a.id == bid) = true
        · rw [hval, if_pos hc]
        · rw [hval, if_neg hc] at hbid
          exact absurd (beq_iff_eq.mpr hbid) hc
  have hPrun : hostMaskedL bid (run s2 ops).breaks := hostMasked_run bid s2 ops hP2 hops
  intro b hb hbid
  refine ⟨hPrun b hb hbid, ?_⟩
  intro u
  rw [break_external_host]
  exact hPrun b hb hbid

/-- Witness for C7 at a concrete reimbursement and an empty follow-up
sequence. -/
theorem host_masked_after_reimbursement_witness :
    (⟨1, ⟨5⟩, "LG06", false, none, some ⟨2⟩, some 5, some ⟨3⟩, none, none⟩
        : BreakInternal).host = none ∧
      ∀ u, (break_internal_to_external
        ⟨1, ⟨5⟩, "LG06", false, none, some ⟨2⟩, some 5, some ⟨3⟩, none, none⟩ u).host = none :=
  host_masked_after_reimbursement
    ⟨[⟨1, ⟨5⟩, "LG06", false, some "Alice", some ⟨2⟩, none, none, none, none⟩], [], 2, 1⟩
    3 1 5
    ⟨[⟨1, ⟨5⟩, "LG06", false, none, some ⟨2⟩, some 5, some ⟨3⟩, none, none⟩], [], 2, 1⟩
    (by with_unfolding_all rfl) [] (by simp)
    ⟨1, ⟨5⟩, "LG06", false, none, some ⟨2⟩, some 5, some ⟨3⟩, none, none⟩
    (by decide) rfl

theorem hasTime_mono (s : Store) (loc : String) (t t2 : Nat) (h : hasTime s t = true) :
    hasTime (insert_break_if_missing s loc t2) t = true := by
  unfold insert_break_if_missing
  by_cases h2 : hasTime s t2 = true
  · rw [if_pos h2]
    exact h
  · rw [if_neg h2]
    show (s.breaks ++ [freshBreak s.next_break_id t2 loc]).any
      (fun b => b.break_time.datetime == t) = true
    rw [List.any_append]
    unfold hasTime at h
    rw [h]
    rfl

theorem hasTime_fold_mono (ts : List Nat) (s : Store) (loc : String) (t : Nat)
    (h : hasTime s t = true) :
    hasTime (ts.foldl (fun acc t2 => insert_break_if_missing acc loc t2) s) t = true := by
  induction ts generalizing s with
  | nil => exact h
  | cons t2 ts ih =>
    exact ih (insert_break_if_missing s loc t2) (hasTime_mono s loc t t2 h)

theorem hasTime_insert_self (s : Store) (loc : String) (t : Nat) :
    hasTime (insert_break_if_missing s loc t) t = true := by
  unfold insert_break_if_missing
  by_cases h : hasTime s t = true
  · rw [if_pos h]
    exact h
  · rw [if_neg h]
    show (s.breaks ++ [freshBreak s.next_break_id t loc]).any
      (fun b => b.break_time.datetime == t) = true
    rw [List.any_append]
    have hf : ([freshBreak s.next_break_id t loc].any
        (fun b => b.break_time.datetime == t)) = true := by
      simp [freshBreak]
    rw [hf]
    simp

theorem hasTime_fold_all (ts : List Nat) (s : Store) (loc : String) :
    ∀ t ∈ ts, hasTime (ts.foldl (fun acc t2 => insert_break_if_missing acc loc t2) s) t = true := by
  induction ts generalizing s with
  | nil =>
    intro t ht
    cases ht
  | cons t2 ts ih =>
    intro t ht
    rcases List.mem_cons.mp ht with heq | hmem
    · subst heq
      exact hasTime_fold_mono ts _ loc t (hasTime_insert_self s loc t)
    · exact ih (insert_break_if_missing s loc t2) t hmem

theorem insert_noop_of_hasTime (s : Store) (loc : String) (t : Nat)
    (h : hasTime s t = true) : insert_break_if_missing s loc t = s := by
  unfold insert_break_if_missing
  rw [if_pos h]

theorem fold_insert_noop (ts : List Nat) (s : Store) (loc : String)
    (h : ∀ t ∈ ts, hasTime s t = true) :
    ts.foldl (fun acc t => insert_break_if_missing acc loc t) s = s := by
  induction ts with
  | nil => rfl
  | cons t2 ts ih =>
    show ts.foldl _ (insert_break_if_missing s loc t2) = s
    rw [insert_noop_of_hasTime s loc t2 (h t2 (List.mem_cons_self t2 ts))]
    exact ih (fun t ht => h t (List.mem_cons_of_mem t2 ht))

theorem nodup_times_insert (s : Store) (loc : String) (t : Nat)
    (h : (s.breaks.map (fun b => b.break_time.datetime)).Nodup) :
    ((insert_break_if_missing s loc t).breaks.map (fun b => b.break_time.datetime)).Nodup := by
  unfold insert_break_if_missing
  by_cases hh : hasTime s t = true
  · rw [if_pos hh]
    exact h
  · rw [if_neg hh]
    show ((s.breaks ++ [freshBreak s.next_break_id t loc]).map
      (fun b => b.break_time.datetime)).Nodup
    rw [List.map_append, List.nodup_append]
    refine ⟨h, by simp, ?_⟩
    intro x hx hx2
    simp only [List.map_cons, List.map_nil, List.mem_singleton] at hx2
    have hxt : x = t := hx2
    subst hxt
    apply hh
    unfold hasTime
    rw [List.any_eq_true]
    simp only [List.mem_map] at hx
    obtain ⟨a, ha, haval⟩ := hx
    exact ⟨a, ha, beq_iff_eq.mpr haval⟩

theorem nodup_times_fold (ts : List Nat) (s : Store) (loc : String)
    (h : (s.breaks.map (fun b => b.break_time.datetime)).Nodup) :
    (((ts.foldl (fun acc t => insert_break_if_missing acc loc t) s).breaks).map
      (fun b => b.break_time.datetime)).Nodup := by
  induction ts generalizing s with
  | nil => exact h
  | cons t2 ts ih =>
    exact ih (insert_break_if_missing s loc t2) (nodup_times_insert s loc t2 h)

/-- C8: `createBreaks` is an idempotent bulk insert: running it a second
time with the same recurrence rule on the resulting store changes
nothing (it inserts only breaks whose computed `break_time` is not
already present), and if the store's break times were duplicate-free
they remain so afterwards, so it never produces two breaks with the same
`break_time`. -/
theorem create_breaks_idempotent (s : Store) (loc : String) (r : Schedule) :
    insert_missing_breaks (insert_missing_breaks s loc r) loc r
      = insert_missing_breaks s loc r ∧
    ((s.breaks.map (fun b => b.break_time.datetime)).Nodup →
      ((insert_missing_breaks s loc r).breaks.map
        (fun b => b.break_time.datetime)).Nodup) := by
  constructor
  · unfold insert_missing_breaks
    apply fold_insert_noop
    intro t ht
    exact hasTime_fold_all (schedule_times r) s loc t ht
  · intro h
    unfold insert_missing_breaks
    exact nodup_times_fold (schedule_times r) s loc h

/-- Witness for C8 on the empty store and a two-element weekly rule. -/
theorem create_breaks_idempotent_witness :
    ((insert_missing_breaks Store.init "LG06" ⟨5, 7, 2⟩).breaks.map
      (fun b => b.break_time.datetime)).Nodup :=
  (create_breaks_idempotent Store.init "LG06" ⟨5, 7, 2⟩).2 (by decide)

theorem get_break_objects_subset (s : Store) (now : Nat) (f : BreakFilters) :
    ∀ b ∈ get_break_objects s now f, b ∈ s.breaks := by
  have hmem : ∀ (le : BreakInternal → BreakInternal → Bool) (x : BreakInternal),
      x ∈ (s.breaks.filter (breakMatches now f)).mergeSort le → x ∈ s.breaks := by
    intro le x hx
    exact List.mem_of_mem_filter ((List.mergeSort_perm _ _).mem_iff.mp hx)
  intro b hb
  unfold get_break_objects at hb
  split at hb <;> split at hb
  · exact hmem _ b hb
  next n heq => exact hmem _ b (List.take_subset n _ hb)
  · exact hmem _ b hb
  next n heq => exact hmem _ b (List.take_subset n _ hb)

/-- C10: the `POST /host` and `POST /reimburse` handlers compute their
break lists from the store alone: the caller identity the HTTP layer
knows is ignored, so two calls differing only in viewer return identical
results, and every returned record is an internal store record with its
cost, host_reimbursed, admin_claimed and admin_reimbursed values
verbatim — no masking projection is applied. -/
theorem host_endpoints_ignore_viewer (s : Store) (now : Nat) (bid : Int) (name : String)
    (c : Rat) (v1 v2 : Option User) :
    set_host_endpoint s now bid name v1 = set_host_endpoint s now bid name v2 ∧
    reimburse_host_endpoint s now bid c v1 = reimburse_host_endpoint s now bid c v2 ∧
    (∀ s2 l, set_host_endpoint s now bid name v1 = .ok (s2, l) → ∀ b ∈ l, b ∈ s2.breaks) ∧
    (∀ s2 l, reimburse_host_endpoint s now bid c v1 = .ok (s2, l) → ∀ b ∈ l, b ∈ s2.breaks) := by
  refine ⟨rfl, rfl, ?_, ?_⟩
  · intro s2 l h
    unfold set_host_endpoint at h
    split at h
    · cases h
    next s3 heq =>
      injection h with h
      injection h with h1 h2
      intro b hb
      rw [← h2] at hb
      rw [← h1]
      exact get_break_objects_subset s3 now _ b hb
  · intro s2 l h
    unfold reimburse_host_endpoint at h
    split at h
    · cases h
    next s3 heq =>
      injection h with h
      injection h with h1 h2
      intro b hb
      rw [← h2] at hb
      rw [← h1]
      exact get_break_objects_subset s3 now _ b hb

/-- Witness for C10: a successful `POST /host` call whose returned
record is the raw stored break. -/
theorem host_endpoints_ignore_viewer_witness :
    (⟨1, ⟨5⟩, "LG06", false, some "Alice", none, none, none, none, none⟩ : BreakInternal)
      ∈ (⟨[⟨1, ⟨5⟩, "LG06", false, some "Alice", none, none, none, none, none⟩],
          [], 2, 1⟩ : Store).breaks :=
  (host_endpoints_ignore_viewer
      ⟨[⟨1, ⟨5⟩, "LG06", false, none, none, none, none, none, none⟩], [], 2, 1⟩
      0 1 "Alice" 5 none (some ⟨"admin", true⟩)).2.2.1
    ⟨[⟨1, ⟨5⟩, "LG06", false, some "Alice", none, none, none, none, none⟩], [], 2, 1⟩
    [⟨1, ⟨5⟩, "LG06", false, some "Alice", none, none, none, none, none⟩]
    (by with_unfolding_all rfl)
    ⟨1, ⟨5⟩, "LG06", false, some "Alice", none, none, none, none, none⟩
    (by decide)
